import Mathlib

set_option maxHeartbeats 1000000

namespace LangChain

/-! Shallow embedding of the agent-executor core of `check-tree-shaking.ts`
(the `AgentExecutor` / `AgentExecutorIterator` classes, lines 113-838).
Callback managers, tags and run managers are observability hooks that never
gate control flow and are not modelled. -/

/-- An `AgentAction` (`schema/index.js`): requested tool name, tool input and
free-text log. Tool inputs are modelled as strings, the shape `Tool.call`
consumes. -/
structure AgentAction where
  tool : String
  toolInput : String
  log : String
deriving DecidableEq, Repr

/-- An `AgentStep`: an action paired with the observation its execution
produced. -/
structure AgentStep where
  action : AgentAction
  observation : String
deriving DecidableEq, Repr

/-- A value stored in a JS record produced by the executor: either a string
output or a list of intermediate steps (the `intermediateSteps` entry). -/
inductive Value where
  | str : String → Value
  | steps : List AgentStep → Value
deriving DecidableEq, Repr

/-- A JS plain object with string keys, in insertion order with unique keys
maintained by `objectInsert`. Used for `ChainValues` / run outputs. -/
abbrev Record := List (String × Value)

/-- An `AgentFinish`: the terminal value of a run, with its named return
values. -/
structure AgentFinish where
  returnValues : Record
  log : String
deriving DecidableEq, Repr

/-- JS `String.prototype.toLowerCase` as used on tool names: character-wise
lower-casing (ASCII-coincident with JS semantics on the names exercised
here). -/
def jsToLowerCase (s : String) : String :=
  String.mk (s.data.map Char.toLower)

/-- JS property assignment `m[k] = v`: overwrite the existing entry in place,
else append a new entry (insertion order preserved, as for JS objects). -/
def objectInsert {α : Type} (m : List (String × α)) (k : String) (v : α) :
    List (String × α) :=
  if m.any (fun p => p.1 = k) then
    m.map (fun p => if p.1 = k then (k, v) else p)
  else
    m ++ [(k, v)]

/-- JS `Object.fromEntries` / object-literal construction: later entries with
the same key overwrite earlier ones, first-insertion order is kept. -/
def objectFromEntries {α : Type} (es : List (String × α)) : List (String × α) :=
  es.foldl (fun m p => objectInsert m p.1 p.2) []

/-- JS property read `m[k]`. -/
def objectGet {α : Type} (m : List (String × α)) (k : String) : Option α :=
  (m.find? (fun p => p.1 = k)).map (fun p => p.2)

/-- JS `k in m` (own keys). -/
def objectHas {α : Type} (m : List (String × α)) (k : String) : Bool :=
  m.any (fun p => p.1 = k)

/-- JS `Object.keys`. -/
def objectKeys {α : Type} (m : List (String × α)) : List String :=
  m.map (fun p => p.1)

/-- JS object spread `{ ...m, ...es }`: insert the entries of `es` into `m` in
order. -/
def objectSpread {α : Type} (m : List (String × α)) (es : List (String × α)) :
    List (String × α) :=
  es.foldl (fun acc p => objectInsert acc p.1 p.2) m

/-- Errors a tool invocation can raise (`tools/base.js` contract):
`ToolInputParsingException`, or any other error thrown by the tool's own
implementation. -/
inductive ToolError where
  | inputParsing (message : String)
  | execution (message : String)
deriving DecidableEq, Repr

/-- A configured tool: case-significant name, return-direct flag, and its
(externally supplied) `call` behavior. -/
structure ToolSpec where
  name : String
  returnDirect : Bool
  call : String → Except ToolError String

/-- The `ExceptionTool` of `check-tree-shaking.ts` (lines 416-424): named
`_Exception`, not return-direct, and its `_call` echoes the query back. -/
def ExceptionTool : ToolSpec :=
  { name := "_Exception", returnDirect := false, call := fun q => .ok q }

/-- Data carried by an `OutputParserException` (`schema/output_parser.js`):
message, the send-to-LLM flag, and the optional observation / llm output it
embeds. -/
structure OutputParserData where
  message : String
  sendToLLM : Bool
  observation : Option String
  llmOutput : Option String
deriving DecidableEq, Repr

/-- Errors `agent.plan` can raise: an `OutputParserException` or any other
error. -/
inductive PlanError where
  | outputParser (e : OutputParserData)
  | other (message : String)
deriving DecidableEq, Repr

/-- The result of `agent.plan`: an `AgentFinish`, a single `AgentAction`, or
an array of actions. -/
inductive PlanOutput where
  | finish : AgentFinish → PlanOutput
  | action : AgentAction → PlanOutput
  | actions : List AgentAction → PlanOutput
deriving DecidableEq, Repr

/-- The source's discrimination of a plan output: `"returnValues" in output`
selects a finish, otherwise `Array.isArray(output)` selects the action list,
a lone action becoming a singleton list. -/
def PlanOutput.toEither : PlanOutput → AgentFinish ⊕ List AgentAction
  | .finish f => .inl f
  | .action a => .inr [a]
  | .actions as => .inr as

/-- The argument passed to a `handleParsingErrors` callback: either kind of
parsing exception. -/
inductive HandlerArg where
  | outputParser (e : OutputParserData)
  | toolInputParsing (message : String)

/-- The `handleParsingErrors` configuration: `false`/`true`, a fixed string,
or a function from the exception to a string. -/
inductive ParsingErrorHandler where
  | ofBool : Bool → ParsingErrorHandler
  | ofString : String → ParsingErrorHandler
  | ofFn : (HandlerArg → String) → ParsingErrorHandler

/-- `agent._agentActionType()`: single- or multi-action agent. -/
inductive AgentActionType where
  | single
  | multi
deriving DecidableEq, Repr

/-- The decision-maker consumed by the executor (an external collaborator):
its `plan`, declared `returnValues`, action type, `returnStoppedResponse` and
`prepareForOutput` capabilities. -/
structure Agent where
  plan : List AgentStep → Record → Except PlanError PlanOutput
  returnValues : List String
  actionType : AgentActionType
  returnStoppedResponse : String → List AgentStep → Record → Except String AgentFinish
  prepareForOutput : Record → List AgentStep → Record

/-- Errors that abort a run, as rethrown or raised by the executor. -/
inductive RunError where
  | outputParser (e : OutputParserData)
  | planOther (message : String)
  | toolInputParsing (message : String)
  | stoppedResponseError (message : String)
  | typeErrorUndefined
  | finalOutputsAlreadyReached
deriving DecidableEq, Repr

/-- The `AgentExecutor` configuration after construction (lines 444-514). -/
structure AgentExecutor where
  agent : Agent
  tools : List ToolSpec
  returnIntermediateSteps : Bool
  maxIterations : Option Nat
  earlyStoppingMethod : String
  handleParsingErrors : ParsingErrorHandler

/-- The `AgentExecutorInput` construction options (lines 391-407). The
`Runnable` branch of the constructor (wrapping a raw runnable into a
`RunnableAgent`) lives in `agent.js` outside this excerpt; inputs are modelled
as already-built agents. -/
structure AgentExecutorInput where
  agent : Agent
  tools : List ToolSpec
  returnIntermediateSteps : Option Bool
  maxIterations : Option Nat
  earlyStoppingMethod : Option String
  handleParsingErrors : Option ParsingErrorHandler

/-- The `AgentExecutor` constructor (lines 487-514): rejects a multi-action
agent combined with any return-direct tool (throwing on the first such tool),
otherwise applies the field defaults (`returnIntermediateSteps = false`,
`maxIterations = 15`, `earlyStoppingMethod = "force"`,
`handleParsingErrors = false`). -/
def AgentExecutor.construct (input : AgentExecutorInput) :
    Except String AgentExecutor :=
  if input.agent.actionType = .multi then
    match input.tools.find? (fun t => t.returnDirect) with
    | some tool =>
        .error ("Tool with return direct " ++ tool.name ++
          " not supported for multi-action agent.")
    | none => .ok
        { agent := input.agent
          tools := input.tools
          returnIntermediateSteps := input.returnIntermediateSteps.getD false
          maxIterations := some (input.maxIterations.getD 15)
          earlyStoppingMethod := input.earlyStoppingMethod.getD "force"
          handleParsingErrors := input.handleParsingErrors.getD (.ofBool false) }
  else .ok
    { agent := input.agent
      tools := input.tools
      returnIntermediateSteps := input.returnIntermediateSteps.getD false
      maxIterations := some (input.maxIterations.getD 15)
      earlyStoppingMethod := input.earlyStoppingMethod.getD "force"
      handleParsingErrors := input.handleParsingErrors.getD (.ofBool false) }

/-- `AgentExecutor.shouldContinue` (lines 531-533):
`maxIterations === undefined || iterations < maxIterations`. -/
def AgentExecutor.shouldContinue (ex : AgentExecutor) (iterations : Nat) : Bool :=
  match ex.maxIterations with
  | none => true
  | some m => decide (iterations < m)

/-- The `toolsByName` table built by `_call` (lines 540-542):
`Object.fromEntries(tools.map(t => [t.name.toLowerCase(), t]))`. -/
def AgentExecutor.toolsByName (ex : AgentExecutor) : List (String × ToolSpec) :=
  objectFromEntries (ex.tools.map (fun t => (jsToLowerCase t.name, t)))

/-- The canned early-stop message of `_returnStoppedResponse` (line 801). -/
def stopMessage : String := "Agent stopped due to iteration limit or time limit."

/-- `AgentExecutor._returnStoppedResponse` (lines 797-809): the "force" method
yields a finish with the canned message under the key `output`; any other
method is a fatal configuration error. -/
def AgentExecutor.returnStoppedResponseForce (earlyStoppingMethod : String) :
    Except String AgentFinish :=
  if earlyStoppingMethod = "force" then
    .ok { returnValues := objectInsert [] "output" (Value.str stopMessage), log := "" }
  else
    .error ("Got unsupported early_stopping_method: " ++ earlyStoppingMethod)

/-- Modelled from the spec: the decision-maker's `returnStoppedResponse` is
implemented in `agent.js`, outside this excerpt. Per sections 4.5 and 6 the
"force" policy synthesizes a Finish carrying the canned stop message under the
decision-maker's declared primary output key. -/
def forceStoppedResponse (returnValues : List String) : Except String AgentFinish :=
  .ok { returnValues := objectInsert [] (returnValues.headD "output") (Value.str stopMessage)
        log := "" }

/-- The plan step shared verbatim by `_call` (lines 561-590) and
`_takeNextStep` (lines 670-704): invoke `agent.plan`; on an
`OutputParserException` apply the `handleParsingErrors` policy and synthesize
an `_Exception` action carrying the derived observation, or rethrow; any other
error is rethrown. An absent `e.observation` / `e.llmOutput` (JS `undefined`)
is modelled as the empty string where the source lets it flow into a string
position. -/
def AgentExecutor.planAndHandle (ex : AgentExecutor) (steps : List AgentStep)
    (inputs : Record) : Except RunError PlanOutput :=
  match ex.agent.plan steps inputs with
  | .ok out => .ok out
  | .error (.other m) => .error (.planOther m)
  | .error (.outputParser e) =>
    match ex.handleParsingErrors with
    | .ofBool true =>
        if e.sendToLLM then
          .ok (.action { tool := "_Exception", toolInput := e.observation.getD ""
                         log := e.llmOutput.getD "" })
        else
          .ok (.action { tool := "_Exception", toolInput := "Invalid or incomplete response"
                         log := e.message })
    | .ofString s => .ok (.action { tool := "_Exception", toolInput := s, log := e.message })
    | .ofFn f => .ok (.action { tool := "_Exception", toolInput := f (.outputParser e)
                                log := e.message })
    | .ofBool false => .error (.outputParser e)

/-- One action dispatch inside `_call` (lines 603-637): `_Exception` routes to
a fresh `ExceptionTool`, other names are looked up lower-cased in
`toolsByName`; a missing tool yields the short invalid-tool observation; a
`ToolInputParsingException` is handled per policy (the derived observation
echoed through an `ExceptionTool`) or rethrown; any other tool error is caught
by the `catch` block but matches no `instanceof` test, so the step is returned
with the observation still `undefined`, coerced to `""` — the error is
swallowed and the run continues. -/
def AgentExecutor.callDispatch (ex : AgentExecutor) (action : AgentAction) :
    Except RunError AgentStep :=
  let tool : Option ToolSpec :=
    if action.tool = "_Exception" then some ExceptionTool
    else objectGet ex.toolsByName (jsToLowerCase action.tool)
  match tool with
  | none => .ok { action := action
                  observation := action.tool ++ " is not a valid tool, try another one." }
  | some t =>
    match t.call action.toolInput with
    | .ok obs => .ok { action := action, observation := obs }
    | .error (.execution _) => .ok { action := action, observation := "" }
    | .error (.inputParsing m) =>
      match ex.handleParsingErrors with
      | .ofBool true =>
          .ok { action := action
                observation := "Invalid or incomplete tool input. Please try again." }
      | .ofString s => .ok { action := action, observation := s }
      | .ofFn f => .ok { action := action, observation := f (.toolInputParsing m) }
      | .ofBool false => .error (.toolInputParsing m)

/-- One action dispatch inside `_takeNextStep` (lines 717-760): the action's
raw tool name is tested with `in` against the raw-named `nameToolMap`; a miss
yields the observation listing the valid (comma-joined) tool names; a
`ToolInputParsingException` is handled per policy (echoed through an
`ExceptionTool`) or rethrown; any other tool error is caught but matches no
`instanceof` test, leaving the observation at its initial `""` — swallowed. -/
def AgentExecutor.takeStepDispatch (ex : AgentExecutor)
    (nameToolMap : List (String × ToolSpec)) (action : AgentAction) :
    Except RunError AgentStep :=
  match objectGet nameToolMap action.tool with
  | none => .ok { action := action
                  observation := action.tool ++
                    " is not a valid tool, try another available tool: " ++
                    String.intercalate ", " (objectKeys nameToolMap) }
  | some t =>
    match t.call action.toolInput with
    | .ok obs => .ok { action := action, observation := obs }
    | .error (.execution _) => .ok { action := action, observation := "" }
    | .error (.inputParsing m) =>
      match ex.handleParsingErrors with
      | .ofBool true =>
          .ok { action := action
                observation := "Invalid or incomplete tool input. Please try again." }
      | .ofString s => .ok { action := action, observation := s }
      | .ofFn f => .ok { action := action, observation := f (.toolInputParsing m) }
      | .ofBool false => .error (.toolInputParsing m)

/-- `AgentExecutor._takeNextStep` (lines 664-762): plan (with parsing-error
policy), return the finish unmodified, or dispatch each action in order
against the supplied raw-name tool map. -/
def AgentExecutor.takeNextStep (ex : AgentExecutor)
    (nameToolMap : List (String × ToolSpec)) (inputs : Record)
    (intermediateSteps : List AgentStep) :
    Except RunError (AgentFinish ⊕ List AgentStep) :=
  match ex.planAndHandle intermediateSteps inputs with
  | .error e => .error e
  | .ok output =>
    match output.toEither with
    | .inl finish => .ok (.inl finish)
    | .inr actions =>
      match actions.mapM (ex.takeStepDispatch nameToolMap) with
      | .error e => .error e
      | .ok result => .ok (.inr result)

/-- The `getOutput` closure of `_call` (lines 546-557): spread the finish's
return values, add `intermediateSteps` when configured, and spread the agent's
`prepareForOutput` fields on top. -/
def AgentExecutor.getOutput (ex : AgentExecutor) (steps : List AgentStep)
    (finishStep : AgentFinish) : Record :=
  let returnValues := finishStep.returnValues
  let additional := ex.agent.prepareForOutput returnValues steps
  if ex.returnIntermediateSteps then
    objectSpread
      (objectInsert (objectSpread [] returnValues) "intermediateSteps" (Value.steps steps))
      additional
  else
    objectSpread (objectSpread [] returnValues) additional

/-- The `while (shouldContinue(iterations))` loop of `_call` (lines 559-661),
with an explicit fuel so the loop is total: `.ok none` means the fuel ran out
while the loop would still continue (unreachable once the fuel covers the
iteration bound). Each cycle plans, dispatches every action preserving order,
appends the new steps, finishes through `getOutput` when the plan finished or
the last step's (lower-cased) tool is return-direct, and otherwise increments
`iterations`; when the continuation predicate fails the agent's stopped
response is built and returned through `getOutput`. Reading `.action` off an
empty `steps` array is the JS `TypeError` branch. -/
def AgentExecutor.callLoop (ex : AgentExecutor) (inputs : Record) :
    Nat → List AgentStep → Nat → Except RunError (Option Record)
  | 0, steps, iterations =>
    if ex.shouldContinue iterations then .ok none
    else
      match ex.agent.returnStoppedResponse ex.earlyStoppingMethod steps inputs with
      | .error m => .error (.stoppedResponseError m)
      | .ok finish => .ok (some (ex.getOutput steps finish))
  | fuel + 1, steps, iterations =>
    if ex.shouldContinue iterations then
      match ex.planAndHandle steps inputs with
      | .error e => .error e
      | .ok output =>
        match output.toEither with
        | .inl finish => .ok (some (ex.getOutput steps finish))
        | .inr actions =>
          match actions.mapM ex.callDispatch with
          | .error e => .error e
          | .ok newSteps =>
            let steps2 := steps ++ newSteps
            match steps2.getLast? with
            | none => .error .typeErrorUndefined
            | some lastStep =>
              match objectGet ex.toolsByName (jsToLowerCase lastStep.action.tool) with
              | some lastTool =>
                if lastTool.returnDirect then
                  .ok (some (ex.getOutput steps2
                    { returnValues := objectInsert []
                        (ex.agent.returnValues.headD "undefined")
                        (Value.str lastStep.observation)
                      log := "" }))
                else ex.callLoop inputs fuel steps2 (iterations + 1)
              | none => ex.callLoop inputs fuel steps2 (iterations + 1)
    else
      match ex.agent.returnStoppedResponse ex.earlyStoppingMethod steps inputs with
      | .error m => .error (.stoppedResponseError m)
      | .ok finish => .ok (some (ex.getOutput steps finish))

/-- `AgentExecutor._call` (lines 536-662): run the loop from empty history and
iteration 0. -/
def AgentExecutor.callRun (ex : AgentExecutor) (inputs : Record) (fuel : Nat) :
    Except RunError (Option Record) :=
  ex.callLoop inputs fuel [] 0

/-- `AgentExecutor._return` (lines 764-777): the finish's return values, with
the intermediate steps attached under `intermediateSteps` when configured. -/
def AgentExecutor.returnOutput (ex : AgentExecutor) (output : AgentFinish)
    (intermediateSteps : List AgentStep) : Record :=
  let finalOutput := output.returnValues
  if ex.returnIntermediateSteps then
    objectInsert finalOutput "intermediateSteps" (Value.steps intermediateSteps)
  else
    finalOutput

/-- `AgentExecutor._getToolReturn` (lines 779-795): the step's raw tool name
is tested against a map keyed by lower-cased tool names; on a hit with
`returnDirect` set, a finish is synthesized with the observation under the
first declared return value key (defaulting to `output`). -/
def AgentExecutor.getToolReturn (ex : AgentExecutor) (nextStepOutput : AgentStep) :
    Option AgentFinish :=
  let nameToolMap := objectFromEntries (ex.tools.map (fun t => (jsToLowerCase t.name, t)))
  let returnValueKey := ex.agent.returnValues.headD "output"
  match objectGet nameToolMap nextStepOutput.action.tool with
  | some t =>
    if t.returnDirect then
      some { returnValues := objectInsert [] returnValueKey
               (Value.str nextStepOutput.observation)
             log := "" }
    else none
  | none => none

/-- The configuration of an `AgentExecutorIterator` (lines 141-206); callbacks,
tags, metadata and run managers are observability-only and not modelled. -/
structure AgentExecutorIterator where
  agentExecutor : AgentExecutor
  inputs : Record

/-- The iterator's per-run mutable state: `intermediateSteps`, `iterations`
and `_finalOutputs` (lines 169-189). -/
structure IterState where
  intermediateSteps : List AgentStep
  iterations : Nat
  finalOutputs : Option Record
deriving DecidableEq, Repr

/-- The state every fresh iterator starts from. -/
def initialIterState : IterState :=
  { intermediateSteps := [], iterations := 0, finalOutputs := none }

/-- `AgentExecutorIterator.reset` (lines 208-216): clear the intermediate
steps, the iteration counter and the stored final outputs. -/
def AgentExecutorIterator.reset (s : IterState) : IterState :=
  { s with intermediateSteps := [], iterations := 0, finalOutputs := none }

/-- `AgentExecutorIterator.nameToToolMap` (lines 191-196): the tool table keyed
by the tools' raw, case-significant names
(`Object.assign({}, ...tools.map(t => ({[t.name]: t})))`). -/
def AgentExecutorIterator.nameToToolMap (it : AgentExecutorIterator) :
    List (String × ToolSpec) :=
  objectFromEntries (it.agentExecutor.tools.map (fun t => (t.name, t)))

/-- Modelled from the spec: `BaseChain.prepOutputs` (from `chains/base.js`) is
outside this excerpt; called with `returnOnlyOutputs = true` and no memory
configured it returns the outputs unchanged. -/
def prepOutputs (_inputs : Record) (value : Record) : Record :=
  value

/-- `AgentExecutorIterator.setFinalOutputs` (lines 176-183): clear then store
the prepared outputs. -/
def AgentExecutorIterator.setFinalOutputs (it : AgentExecutorIterator)
    (s : IterState) (value : Option Record) : IterState :=
  match value with
  | some v => { s with finalOutputs := some (prepOutputs it.inputs v) }
  | none => { s with finalOutputs := none }

/-- `AgentExecutorIterator._processNextStepOutput` (lines 301-340): a finish is
returned through `_return` and stored as final outputs; a step batch is
appended to the history, and when the batch is a singleton whose tool return
fires, the tool-return finish is stored as final outputs — but the returned
record is then unconditionally overwritten with the `intermediateSteps`
batch. -/
def AgentExecutorIterator.processNextStepOutput (it : AgentExecutorIterator)
    (s : IterState) (nextStepOutput : AgentFinish ⊕ List AgentStep) :
    Record × IterState :=
  match nextStepOutput with
  | .inl finish =>
    let output := it.agentExecutor.returnOutput finish s.intermediateSteps
    (output, it.setFinalOutputs s (some output))
  | .inr stepsBatch =>
    let s1 := { s with intermediateSteps := s.intermediateSteps ++ stepsBatch }
    let s2 :=
      match stepsBatch with
      | [step] =>
        match it.agentExecutor.getToolReturn step with
        | some toolReturn =>
          it.setFinalOutputs s1
            (some (it.agentExecutor.returnOutput toolReturn s1.intermediateSteps))
        | none => s1
      | _ => s1
    ([("intermediateSteps", Value.steps stepsBatch)], s2)

/-- `AgentExecutorIterator._stop` (lines 342-355): build the agent's stopped
response, run it through `_return`, store it as final outputs and return it. -/
def AgentExecutorIterator.stop (it : AgentExecutorIterator) (s : IterState) :
    Except RunError (Record × IterState) :=
  match it.agentExecutor.agent.returnStoppedResponse
      it.agentExecutor.earlyStoppingMethod s.intermediateSteps it.inputs with
  | .error m => .error (.stoppedResponseError m)
  | .ok output =>
    let returnedOutput := it.agentExecutor.returnOutput output s.intermediateSteps
    .ok (returnedOutput, it.setFinalOutputs s (some returnedOutput))

/-- `AgentExecutorIterator._callNext` (lines 357-379): throw once final
outputs exist; stop when the continuation predicate fails; otherwise take the
next step, process its output and increment the iteration counter. -/
def AgentExecutorIterator.callNext (it : AgentExecutorIterator) (s : IterState) :
    Except RunError (Record × IterState) :=
  if s.finalOutputs.isSome then .error .finalOutputsAlreadyReached
  else if ¬ it.agentExecutor.shouldContinue s.iterations then it.stop s
  else
    match it.agentExecutor.takeNextStep it.nameToToolMap it.inputs
        s.intermediateSteps with
    | .error e => .error e
    | .ok nextStepOutput =>
      let (output, s1) := it.processNextStepOutput s nextStepOutput
      .ok (output, { s1 with iterations := s1.iterations + 1 })

/-- The outcome of driving `streamIterator` to exhaustion: the values it
yielded and either the generator's return value (the stored final outputs), an
escaping error, or fuel exhaustion. -/
inductive StreamResult where
  | drained (yields : List Record) (finalOutputs : Option Record)
  | errored (yields : List Record) (e : RunError)
  | outOfFuel (yields : List Record)
deriving Repr

/-- The `while (true)` loop of `streamIterator` (lines 226-250): yield each
`_callNext` result; on the final-outputs-already-reached error, rethrow if no
final outputs are stored, else return them; any other error is rethrown. -/
def AgentExecutorIterator.streamLoop (it : AgentExecutorIterator) :
    Nat → IterState → List Record → StreamResult
  | 0, _, acc => .outOfFuel acc.reverse
  | fuel + 1, s, acc =>
    match it.callNext s with
    | .ok (out, s1) => it.streamLoop fuel s1 (out :: acc)
    | .error .finalOutputsAlreadyReached =>
      match s.finalOutputs with
      | none => .errored acc.reverse .finalOutputsAlreadyReached
      | some fo => .drained acc.reverse (some fo)
    | .error e => .errored acc.reverse e

/-- `AgentExecutorIterator.streamIterator` (lines 222-251): reset the state,
then loop. -/
def AgentExecutorIterator.streamIterator (it : AgentExecutorIterator)
    (fuel : Nat) (s : IterState) : StreamResult :=
  it.streamLoop fuel (AgentExecutorIterator.reset s) []


/-! Concrete tools, agents and configurations used by the witnesses and
counterexamples below. -/

/-- A tool that echoes its input. -/
def echoTool : ToolSpec :=
  { name := "echo", returnDirect := false, call := fun s => .ok s }

/-- A tool whose implementation always raises a generic (non-input-parsing)
execution error. -/
def bombTool : ToolSpec :=
  { name := "bomb", returnDirect := false, call := fun _ => .error (.execution "boom") }

/-- A return-direct tool with an upper-case letter in its name. -/
def upperEchoTool : ToolSpec :=
  { name := "Echo", returnDirect := true, call := fun s => .ok ("E:" ++ s) }

/-- A lower-case-named return-direct tool. -/
def directTool : ToolSpec :=
  { name := "direct", returnDirect := true, call := fun s => .ok ("D:" ++ s) }

/-- The force-stop responder shared by the concrete agents below. -/
def outputForceStop : String → List AgentStep → Record → Except String AgentFinish :=
  fun _ _ _ => forceStoppedResponse ["output"]

/-- An agent that first calls the `bomb` tool, then finishes. -/
def agent1 : Agent :=
  { plan := fun steps _ =>
      match steps.head? with
      | none => .ok (.action { tool := "bomb", toolInput := "x", log := "" })
      | some _ => .ok (.finish { returnValues := [("output", Value.str "finished")], log := "" })
    returnValues := ["output"]
    actionType := .single
    returnStoppedResponse := outputForceStop
    prepareForOutput := fun _ _ => [] }

/-- An executor over `agent1` and the failing tool, returning intermediate
steps. -/
def ex1 : AgentExecutor :=
  { agent := agent1, tools := [bombTool], returnIntermediateSteps := true
    maxIterations := some 15, earlyStoppingMethod := "force"
    handleParsingErrors := .ofBool false }

/-- An agent that first requests the unregistered tool `bogus`, then finishes
with the first observation as its output. -/
def agent2 : Agent :=
  { plan := fun steps _ =>
      match steps.head? with
      | none => .ok (.action { tool := "bogus", toolInput := "x", log := "" })
      | some st => .ok (.finish { returnValues := [("output", Value.str st.observation)], log := "" })
    returnValues := ["output"]
    actionType := .single
    returnStoppedResponse := outputForceStop
    prepareForOutput := fun _ _ => [] }

/-- An executor over `agent2` and the `echo` tool. -/
def ex2 : AgentExecutor :=
  { agent := agent2, tools := [echoTool], returnIntermediateSteps := false
    maxIterations := some 15, earlyStoppingMethod := "force"
    handleParsingErrors := .ofBool false }

/-- The iterator over `ex2`. -/
def it2 : AgentExecutorIterator := { agentExecutor := ex2, inputs := [] }

/-- An agent that always requests the `echo` tool and never finishes. -/
def agent5 : Agent :=
  { plan := fun _ _ => .ok (.action { tool := "echo", toolInput := "x", log := "" })
    returnValues := ["output"]
    actionType := .single
    returnStoppedResponse := outputForceStop
    prepareForOutput := fun _ _ => [] }

/-- An executor over `agent5` with an iteration bound of 2. -/
def ex5 : AgentExecutor :=
  { agent := agent5, tools := [echoTool], returnIntermediateSteps := false
    maxIterations := some 2, earlyStoppingMethod := "force"
    handleParsingErrors := .ofBool false }

/-- An agent that always requests the upper-case-named `Echo` tool and never
finishes. -/
def agent6 : Agent :=
  { plan := fun _ _ => .ok (.action { tool := "Echo", toolInput := "hi", log := "" })
    returnValues := ["output"]
    actionType := .single
    returnStoppedResponse := outputForceStop
    prepareForOutput := fun _ _ => [] }

/-- An executor over `agent6` and the return-direct `Echo` tool, iteration
bound 2. -/
def ex6 : AgentExecutor :=
  { agent := agent6, tools := [upperEchoTool], returnIntermediateSteps := false
    maxIterations := some 2, earlyStoppingMethod := "force"
    handleParsingErrors := .ofBool false }

/-- The iterator over `ex6`. -/
def it6 : AgentExecutorIterator := { agentExecutor := ex6, inputs := [] }

/-- An agent that always requests the lower-case-named `direct` tool. -/
def agent6b : Agent :=
  { plan := fun _ _ => .ok (.action { tool := "direct", toolInput := "hi", log := "" })
    returnValues := ["output"]
    actionType := .single
    returnStoppedResponse := outputForceStop
    prepareForOutput := fun _ _ => [] }

/-- An executor over `agent6b` and the return-direct `direct` tool. -/
def ex6b : AgentExecutor :=
  { agent := agent6b, tools := [directTool], returnIntermediateSteps := false
    maxIterations := some 5, earlyStoppingMethod := "force"
    handleParsingErrors := .ofBool false }

/-- The iterator over `ex6b`. -/
def it6b : AgentExecutorIterator := { agentExecutor := ex6b, inputs := [] }

/-- An agent whose plan always raises an output-parsing error. -/
def agent7 : Agent :=
  { plan := fun _ _ => .error (.outputParser
      { message := "could not parse", sendToLLM := false, observation := none, llmOutput := none })
    returnValues := ["output"]
    actionType := .single
    returnStoppedResponse := outputForceStop
    prepareForOutput := fun _ _ => [] }

/-- An executor over `agent7` with the fixed-string policy `use X`. -/
def ex7 : AgentExecutor :=
  { agent := agent7, tools := [echoTool], returnIntermediateSteps := false
    maxIterations := some 2, earlyStoppingMethod := "force"
    handleParsingErrors := .ofString "use X" }

/-- The iterator over `ex7`. -/
def it7 : AgentExecutorIterator := { agentExecutor := ex7, inputs := [] }

/-- A variant of `ex7` returning intermediate steps. -/
def ex7w : AgentExecutor :=
  { agent := agent7, tools := [echoTool], returnIntermediateSteps := true
    maxIterations := some 2, earlyStoppingMethod := "force"
    handleParsingErrors := .ofString "use X" }

/-- A multi-action agent. -/
def multiAgent : Agent :=
  { plan := fun _ _ => .ok (.actions [])
    returnValues := ["output"]
    actionType := .multi
    returnStoppedResponse := outputForceStop
    prepareForOutput := fun _ _ => [] }

/-- Construction input combining a multi-action agent with a return-direct
tool. -/
def input9 : AgentExecutorInput :=
  { agent := multiAgent, tools := [directTool], returnIntermediateSteps := none
    maxIterations := none, earlyStoppingMethod := none, handleParsingErrors := none }

/-! Lemmas about the JS object model. -/

/-- Entries of an insertion come from the original object or are the inserted
pair. -/
theorem mem_objectInsert {α : Type} {m : List (String × α)} {k : String} {v : α}
    {p : String × α} (h : p ∈ objectInsert m k v) : p ∈ m ∨ p = (k, v) := by
  unfold objectInsert at h
  split at h
  · obtain ⟨q, hq, hqe⟩ := List.mem_map.mp h
    by_cases hk : q.1 = k
    · right
      simp only [hk, if_pos rfl] at hqe
      exact hqe.symm
    · left
      simp only [if_neg hk] at hqe
      exact hqe ▸ hq
  · rcases List.mem_append.mp h with h1 | h1
    · exact Or.inl h1
    · exact Or.inr (List.mem_singleton.mp h1)

/-- Entries of a left fold of insertions come from the start object or the
inserted list. -/
theorem mem_foldl_objectInsert {α : Type} {es : List (String × α)}
    {m : List (String × α)} {p : String × α}
    (h : p ∈ es.foldl (fun acc q => objectInsert acc q.1 q.2) m) :
    p ∈ m ∨ p ∈ es := by
  induction es generalizing m with
  | nil => exact Or.inl h
  | cons q es ih =>
    simp only [List.foldl_cons] at h
    rcases ih h with h1 | h1
    · rcases mem_objectInsert h1 with h2 | h2
      · exact Or.inl h2
      · exact Or.inr (by simp [h2])
    · exact Or.inr (List.mem_cons_of_mem _ h1)

/-- Entries of `objectFromEntries es` all come from `es`. -/
theorem mem_objectFromEntries {α : Type} {es : List (String × α)}
    {p : String × α} (h : p ∈ objectFromEntries es) : p ∈ es := by
  rcases mem_foldl_objectInsert h with h1 | h1
  · cases h1
  · exact h1

/-- A successful `objectGet` exhibits a matching entry of the object. -/
theorem objectGet_eq_some_iff_pair_mem' {α : Type} {m : List (String × α)}
    {k : String} {v : α} (h : objectGet m k = some v) : (k, v) ∈ m := by
  unfold objectGet at h
  obtain ⟨p, hp, hpv⟩ := Option.map_eq_some'.mp h
  have hk : p.1 = k := by simpa using List.find?_some hp
  have hm : p ∈ m := List.mem_of_find?_eq_some hp
  have : p = (k, v) := Prod.ext hk hpv
  exact this ▸ hm

/-- A successful lookup in a table built from a keyed list exhibits an element
of the list carrying that key. -/
theorem objectGet_fromEntries_map {α : Type} {l : List α} {key : α → String}
    {k : String} {t : α}
    (h : objectGet (objectFromEntries (l.map (fun x => (key x, x)))) k = some t) :
    t ∈ l ∧ key t = k := by
  have hmem := mem_objectFromEntries (objectGet_eq_some_iff_pair_mem' h)
  obtain ⟨x, hx, hxe⟩ := List.mem_map.mp hmem
  have hx1 : key x = k := congrArg Prod.fst hxe
  have hx2 : x = t := congrArg Prod.snd hxe
  exact ⟨hx2 ▸ hx, by rw [← hx2, hx1]⟩

/-- Inserting a key makes it present. -/
theorem objectHas_objectInsert_self {α : Type} (m : List (String × α))
    (k : String) (v : α) : objectHas (objectInsert m k v) k = true := by
  unfold objectHas objectInsert
  split
  · rename_i hany
    obtain ⟨p, hp, hpk⟩ := List.any_eq_true.mp hany
    refine List.any_eq_true.mpr ⟨(k, v), List.mem_map.mpr ⟨p, hp, ?_⟩, by simp⟩
    simp only [decide_eq_true_eq] at hpk
    simp [hpk]
  · exact List.any_eq_true.mpr ⟨(k, v), by simp, by simp⟩

/-- Insertion preserves the presence of other keys. -/
theorem objectHas_objectInsert_of {α : Type} {m : List (String × α)}
    {k2 : String} (k : String) (v : α) (h : objectHas m k2 = true) :
    objectHas (objectInsert m k v) k2 = true := by
  unfold objectHas objectInsert
  obtain ⟨p, hp, hpk⟩ := List.any_eq_true.mp h
  simp only [decide_eq_true_eq] at hpk
  split
  · refine List.any_eq_true.mpr ⟨if p.1 = k then (k, v) else p, List.mem_map.mpr ⟨p, hp, rfl⟩, ?_⟩
    by_cases hk : p.1 = k
    · rw [if_pos hk]
      simp [← hk, hpk]
    · rw [if_neg hk]
      simp [hpk]
  · exact List.any_eq_true.mpr ⟨p, List.mem_append_left _ hp, by simp [hpk]⟩

/-- A left fold of insertions preserves key presence. -/
theorem objectHas_foldl_of {α : Type} (es : List (String × α))
    {m : List (String × α)} {k : String} (h : objectHas m k = true) :
    objectHas (es.foldl (fun acc q => objectInsert acc q.1 q.2) m) k = true := by
  induction es generalizing m with
  | nil => exact h
  | cons q es ih => exact ih (objectHas_objectInsert_of q.1 q.2 h)

/-- A key is present in `objectFromEntries es` exactly when some entry of `es`
carries it. -/
theorem objectHas_objectFromEntries {α : Type} (es : List (String × α))
    (k : String) :
    objectHas (objectFromEntries es) k = es.any (fun p => p.1 = k) := by
  rw [Bool.eq_iff_iff]
  constructor
  · intro h
    obtain ⟨p, hp, hpk⟩ := List.any_eq_true.mp h
    exact List.any_eq_true.mpr ⟨p, mem_objectFromEntries hp, hpk⟩
  · intro h
    unfold objectFromEntries
    obtain ⟨p, hp, hpk⟩ := List.any_eq_true.mp h
    simp only [decide_eq_true_eq] at hpk
    obtain ⟨l1, l2, rfl⟩ := List.append_of_mem hp
    rw [List.foldl_append, List.foldl_cons]
    exact objectHas_foldl_of _ (hpk ▸ objectHas_objectInsert_self _ _ _)

/-- `objectGet` succeeds exactly when the key is present. -/
theorem objectGet_isSome_eq_objectHas {α : Type} (m : List (String × α))
    (k : String) : (objectGet m k).isSome = objectHas m k := by
  rw [Bool.eq_iff_iff]
  unfold objectGet objectHas
  rw [Option.isSome_map']
  rw [List.find?_isSome, List.any_eq_true]

/-- Inserting into the empty object yields the singleton object. -/
theorem objectInsert_nil {α : Type} (k : String) (v : α) :
    objectInsert ([] : List (String × α)) k v = [(k, v)] := by
  simp [objectInsert]

/-- Spreading the empty list is the identity. -/
theorem objectSpread_nil_right {α : Type} (m : List (String × α)) :
    objectSpread m [] = m := rfl

/-- Spreading a singleton into the empty object. -/
theorem objectSpread_nil_single {α : Type} (k : String) (v : α) :
    objectSpread ([] : List (String × α)) [(k, v)] = [(k, v)] := by
  simp [objectSpread, objectInsert]

/-- Inserting a fresh key into a singleton object appends it. -/
theorem objectInsert_single_ne {α : Type} (k : String) (v : α) (k2 : String)
    (v2 : α) (h : k ≠ k2) :
    objectInsert [(k, v)] k2 v2 = [(k, v), (k2, v2)] := by
  simp [objectInsert, h]

/-- Reading the head key of an object. -/
theorem objectGet_cons_self {α : Type} (k : String) (v : α)
    (rest : List (String × α)) : objectGet ((k, v) :: rest) k = some v := by
  simp [objectGet, List.find?]

/-- Reading past a non-matching head entry. -/
theorem objectGet_cons_ne {α : Type} (k1 : String) (v1 : α)
    (rest : List (String × α)) (k : String) (h : k1 ≠ k) :
    objectGet ((k1, v1) :: rest) k = objectGet rest k := by
  simp [objectGet, List.find?, h]

/-- With no extra prepared output fields, `getOutput` on a single-entry finish
with intermediate steps enabled is the two-entry record. -/
theorem getOutput_closed_ris (ex : AgentExecutor) (steps : List AgentStep)
    (pk : String) (v : Value) (lg : String)
    (hris : ex.returnIntermediateSteps = true)
    (hprep : ex.agent.prepareForOutput (objectInsert [] pk v) steps = [])
    (hpk : pk ≠ "intermediateSteps") :
    ex.getOutput steps { returnValues := objectInsert [] pk v, log := lg } =
      [(pk, v), ("intermediateSteps", Value.steps steps)] := by
  simp only [AgentExecutor.getOutput, hris, if_true, hprep]
  rw [objectSpread_nil_right, objectInsert_nil, objectSpread_nil_single,
    objectInsert_single_ne _ _ _ _ hpk]

/-- With no extra prepared output fields, `getOutput` on a single-entry finish
without intermediate steps is the singleton record. -/
theorem getOutput_closed_noris (ex : AgentExecutor) (steps : List AgentStep)
    (pk : String) (v : Value) (lg : String)
    (hris : ex.returnIntermediateSteps = false)
    (hprep : ex.agent.prepareForOutput (objectInsert [] pk v) steps = []) :
    ex.getOutput steps { returnValues := objectInsert [] pk v, log := lg } =
      [(pk, v)] := by
  simp only [AgentExecutor.getOutput, hris, Bool.false_eq_true, if_false, hprep]
  rw [objectSpread_nil_right, objectInsert_nil, objectSpread_nil_single]

/-- The primary key of a single-entry finish survives `getOutput` untouched
when no prepared fields are added. -/
theorem objectGet_getOutput_primary (ex : AgentExecutor) (steps : List AgentStep)
    (pk : String) (v : Value) (lg : String)
    (hprep : ex.agent.prepareForOutput (objectInsert [] pk v) steps = [])
    (hpk : pk ≠ "intermediateSteps") :
    objectGet (ex.getOutput steps { returnValues := objectInsert [] pk v, log := lg }) pk =
      some v := by
  cases hris : ex.returnIntermediateSteps
  · rw [getOutput_closed_noris ex steps pk v lg hris hprep, objectGet_cons_self]
  · rw [getOutput_closed_ris ex steps pk v lg hris hprep hpk, objectGet_cons_self]

/-- The primary key of a single-entry finish survives `_return` untouched. -/
theorem objectGet_returnOutput_primary (ex : AgentExecutor)
    (steps : List AgentStep) (pk : String) (v : Value) (lg : String)
    (hpk : pk ≠ "intermediateSteps") :
    objectGet (ex.returnOutput { returnValues := objectInsert [] pk v, log := lg } steps) pk =
      some v := by
  unfold AgentExecutor.returnOutput
  cases hris : ex.returnIntermediateSteps
  · simp only [Bool.false_eq_true, if_false]
    rw [objectInsert_nil, objectGet_cons_self]
  · simp only [if_true]
    rw [objectInsert_nil, objectInsert_single_ne _ _ _ _ hpk, objectGet_cons_self]

/-- A tool resolved through `toolsByName` is one of the configured tools, and
its lower-cased name is the lookup key. -/
theorem toolsByName_get_mem {ex : AgentExecutor} {k : String} {t : ToolSpec}
    (h : objectGet ex.toolsByName k = some t) :
    t ∈ ex.tools ∧ jsToLowerCase t.name = k :=
  @objectGet_fromEntries_map _ ex.tools (fun x => jsToLowerCase x.name) _ _ h

/-- A tool resolved through the iterator's `nameToToolMap` is one of the
configured tools, and its raw name is the lookup key. -/
theorem nameToToolMap_get_mem {it : AgentExecutorIterator} {k : String}
    {t : ToolSpec} (h : objectGet it.nameToToolMap k = some t) :
    t ∈ it.agentExecutor.tools ∧ t.name = k :=
  @objectGet_fromEntries_map _ it.agentExecutor.tools (fun x => x.name) _ _ h

/-- When every configured tool's behavior returns plain observations, each
`_call` dispatch returns an ordinary step for its action. -/
theorem callDispatch_ok (ex : AgentExecutor)
    (hcalls : ∀ t ∈ ex.tools, ∀ inp, ∃ o, t.call inp = .ok o) (a : AgentAction) :
    ∃ obs, ex.callDispatch a = .ok { action := a, observation := obs } := by
  unfold AgentExecutor.callDispatch
  by_cases hE : a.tool = "_Exception"
  · exact ⟨a.toolInput, by simp [hE, ExceptionTool]⟩
  · simp only [hE, if_false]
    cases hg : objectGet ex.toolsByName (jsToLowerCase a.tool) with
    | none =>
      refine ⟨a.tool ++ " is not a valid tool, try another one.", ?_⟩
      simp [hg]
    | some t =>
      obtain ⟨o, ho⟩ := hcalls t (toolsByName_get_mem hg).1 a.toolInput
      exact ⟨o, by simp [hg, ho]⟩

/-- `mapM` of well-behaved dispatches succeeds with one step per action. -/
theorem mapM_callDispatch_ok (ex : AgentExecutor)
    (hcalls : ∀ t ∈ ex.tools, ∀ inp, ∃ o, t.call inp = .ok o) :
    ∀ as : List AgentAction, ∃ l, as.mapM ex.callDispatch = .ok l ∧
      l.length = as.length := by
  intro as
  induction as with
  | nil => exact ⟨[], by simp [List.mapM_nil]; rfl, rfl⟩
  | cons a as ih =>
    obtain ⟨obs, ho⟩ := callDispatch_ok ex hcalls a
    obtain ⟨l, hl, hlen⟩ := ih
    refine ⟨{ action := a, observation := obs } :: l, ?_, by simp [hlen]⟩
    rw [List.mapM_cons, ho, hl]
    rfl

/-- With a finite iteration bound, the continuation predicate is the strict
comparison against it. -/
theorem shouldContinue_eq {ex : AgentExecutor} {N : Nat}
    (hmax : ex.maxIterations = some N) (its : Nat) :
    ex.shouldContinue its = decide (its < N) := by
  unfold AgentExecutor.shouldContinue
  rw [hmax]

/-! Claim theorems. -/

/-- C10: every invocation of `streamIterator` begins by resetting the iterator
state — intermediate steps to empty, iteration count to 0, stored final
outputs to undefined — so a run started from any prior state (even a fully
drained one) behaves exactly like a run from a fresh instance. -/
theorem streamIterator_always_fresh (it : AgentExecutorIterator) (s : IterState)
    (fuel : Nat) :
    AgentExecutorIterator.reset s = initialIterState ∧
    it.streamIterator fuel s = it.streamIterator fuel initialIterState := by
  have h : AgentExecutorIterator.reset s = initialIterState := by
    cases s
    rfl
  refine ⟨h, ?_⟩
  unfold AgentExecutorIterator.streamIterator
  rw [h]
  rfl

/-- C1: the claim says a tool execution error always aborts the run and
propagates unmodified. The dispatch `catch` blocks only test
`instanceof ToolInputParsingException` and rethrow nothing else, so a generic
execution error is swallowed: the step is recorded with observation `""` and
the run continues. Here the `bomb` tool raises an execution error, yet `_call`
returns a normal finish produced by a second planning cycle, with the failing
step recorded under the empty observation. -/
theorem toolExecutionError_swallowed :
    bombTool.call "x" = .error (.execution "boom") ∧
    ex1.callRun [] 15 =
      .ok (some [("output", Value.str "finished"),
        ("intermediateSteps", Value.steps
          [{ action := { tool := "bomb", toolInput := "x", log := "" },
             observation := "" }])]) :=
  ⟨rfl, rfl⟩

/-- C2: on the same inputs, configuration, tools and decision-maker, the
run-to-completion driver and the fully drained step iterator produce different
final results: their unknown-tool observations differ (`_call` emits the short
message, `_takeNextStep` the comma-joined listing), which the deciding agent
copies into its finish. -/
theorem call_vs_streamIterator_diverge :
    ex2.callRun [] 15 =
      .ok (some [("output", Value.str "bogus is not a valid tool, try another one.")]) ∧
    it2.streamIterator 5 initialIterState =
      .drained
        [[("intermediateSteps", Value.steps
            [{ action := { tool := "bogus", toolInput := "x", log := "" },
               observation := "bogus is not a valid tool, try another available tool: echo" }])],
         [("output", Value.str "bogus is not a valid tool, try another available tool: echo")]]
        (some [("output", Value.str "bogus is not a valid tool, try another available tool: echo")]) ∧
    ("bogus is not a valid tool, try another one." : String) ≠
      "bogus is not a valid tool, try another available tool: echo" :=
  ⟨rfl, rfl, by decide⟩

/-- C3 (counterexample): executing an unknown-tool Action in the
run-to-completion dispatch yields the short observation without the
comma-joined listing of valid names, contradicting the claimed universal
message format. -/
theorem unknownTool_message_cex :
    ex2.callDispatch { tool := "bogus", toolInput := "x", log := "" } =
      .ok { action := { tool := "bogus", toolInput := "x", log := "" },
            observation := "bogus is not a valid tool, try another one." } ∧
    ("bogus is not a valid tool, try another one." : String) ≠
      "bogus is not a valid tool, try another available tool: echo" :=
  ⟨rfl, by decide⟩

/-- C3 (amended): an Action naming an unregistered tool never raises and the
run continues in both modes, but the Observation depends on the mode: the
step-executor path yields the comma-joined valid-name listing, while the
run-to-completion dispatch yields the short message without the listing. -/
theorem unknownTool_dispatch (ex : AgentExecutor)
    (nameToolMap : List (String × ToolSpec)) (a : AgentAction)
    (h1 : objectGet nameToolMap a.tool = none)
    (h2 : objectGet ex.toolsByName (jsToLowerCase a.tool) = none)
    (h3 : a.tool ≠ "_Exception") :
    ex.takeStepDispatch nameToolMap a =
      .ok { action := a,
            observation := a.tool ++ " is not a valid tool, try another available tool: " ++
              String.intercalate ", " (objectKeys nameToolMap) } ∧
    ex.callDispatch a =
      .ok { action := a,
            observation := a.tool ++ " is not a valid tool, try another one." } := by
  constructor
  · unfold AgentExecutor.takeStepDispatch
    rw [h1]
  · unfold AgentExecutor.callDispatch
    simp only [h3, if_false, h2]

/-- C3 (witness): the amended theorem applied to the `bogus` action against
the `echo`-only tool table. -/
theorem unknownTool_dispatch_witness :
    objectGet it2.nameToToolMap "bogus" = none ∧
    ex2.takeStepDispatch it2.nameToToolMap { tool := "bogus", toolInput := "x", log := "" } =
      .ok { action := { tool := "bogus", toolInput := "x", log := "" },
            observation := "bogus" ++ " is not a valid tool, try another available tool: " ++
              String.intercalate ", " (objectKeys it2.nameToToolMap) } ∧
    ex2.callDispatch { tool := "bogus", toolInput := "x", log := "" } =
      .ok { action := { tool := "bogus", toolInput := "x", log := "" },
            observation := "bogus" ++ " is not a valid tool, try another one." } := by
  have h := unknownTool_dispatch ex2 it2.nameToToolMap
    { tool := "bogus", toolInput := "x", log := "" } rfl rfl (by decide)
  exact ⟨rfl, h.1, h.2⟩

/-- C9: constructing an executor from a multi-action agent together with any
return-direct tool fails at construction time with the configuration error
naming the offending tool (no executor value is ever produced, so no run can
start). -/
theorem construct_rejects_multi_returnDirect (input : AgentExecutorInput)
    (hmulti : input.agent.actionType = .multi)
    (hrd : ∃ t ∈ input.tools, t.returnDirect = true) :
    ∃ t ∈ input.tools, t.returnDirect = true ∧
      AgentExecutor.construct input = .error
        ("Tool with return direct " ++ t.name ++ " not supported for multi-action agent.") := by
  have hfind : (input.tools.find? (fun t => t.returnDirect)).isSome := by
    rw [List.find?_isSome]
    obtain ⟨t, ht, hrdt⟩ := hrd
    exact ⟨t, ht, by simp [hrdt]⟩
  obtain ⟨t, ht⟩ := Option.isSome_iff_exists.mp hfind
  refine ⟨t, List.mem_of_find?_eq_some ht, ?_, ?_⟩
  · have := List.find?_some ht
    simpa using this
  · unfold AgentExecutor.construct
    rw [if_pos hmulti, ht]

/-- C9 (witness): the constructor rejection at the concrete multi-action input
`input9`. -/
theorem construct_rejects_multi_returnDirect_witness :
    multiAgent.actionType = .multi ∧
    (∃ t ∈ input9.tools, t.returnDirect = true) ∧
    ∃ t ∈ input9.tools, t.returnDirect = true ∧
      AgentExecutor.construct input9 = .error
        ("Tool with return direct " ++ t.name ++ " not supported for multi-action agent.") := by
  refine ⟨rfl, ⟨directTool, by simp [input9], rfl⟩, ?_⟩
  exact construct_rejects_multi_returnDirect input9 rfl ⟨directTool, by simp [input9], rfl⟩

/-- Boolean `any` over a mapped list. -/
theorem list_any_map {α β : Type} (l : List α) (f : α → β) (p : β → Bool) :
    (l.map f).any p = l.any (fun x => p (f x)) := by
  induction l with
  | nil => rfl
  | cons a l ih => simp [ih]

/-- C4 (amended): tool lookup is case-insensitive only in the run-to-completion
driver, whose table keys and lookup key are both lower-cased; the step-executor
path matches the action's raw name exactly against raw registered names; and
the return-direct check matches the action's raw name against lower-cased
registered names, so it can only hit a tool whose lower-cased name equals the
action's raw name. -/
theorem toolLookup_case_sensitivity :
    (∀ (ex : AgentExecutor) (a : AgentAction),
      (objectGet ex.toolsByName (jsToLowerCase a.tool)).isSome =
        ex.tools.any (fun t => jsToLowerCase t.name = jsToLowerCase a.tool)) ∧
    (∀ (it : AgentExecutorIterator) (a : AgentAction),
      (objectGet it.nameToToolMap a.tool).isSome =
        it.agentExecutor.tools.any (fun t => t.name = a.tool)) ∧
    (∀ (ex : AgentExecutor) (step : AgentStep),
      (ex.getToolReturn step).isSome = true →
        ex.tools.any (fun t => jsToLowerCase t.name = step.action.tool) = true) := by
  refine ⟨?_, ?_, ?_⟩
  · intro ex a
    rw [objectGet_isSome_eq_objectHas]
    unfold AgentExecutor.toolsByName
    rw [objectHas_objectFromEntries, list_any_map]
  · intro it a
    rw [objectGet_isSome_eq_objectHas]
    unfold AgentExecutorIterator.nameToToolMap
    rw [objectHas_objectFromEntries, list_any_map]
  · intro ex step h
    simp only [AgentExecutor.getToolReturn] at h
    cases hg : objectGet
        (objectFromEntries (ex.tools.map (fun t => (jsToLowerCase t.name, t))))
        step.action.tool with
    | none =>
      rw [hg] at h
      simp at h
    | some t =>
      obtain ⟨hmem, hkey⟩ := objectGet_fromEntries_map hg
      exact List.any_eq_true.mpr ⟨t, hmem, by simp [hkey]⟩

/-- C4 (witness): the return-direct check firing for the lower-case-named
`direct` tool. -/
theorem toolLookup_case_sensitivity_witness :
    (ex6b.getToolReturn ⟨⟨"direct", "hi", ""⟩, "D:hi"⟩).isSome = true ∧
    ex6b.tools.any (fun t => jsToLowerCase t.name = "direct") = true :=
  ⟨rfl, toolLookup_case_sensitivity.2.2 ex6b ⟨⟨"direct", "hi", ""⟩, "D:hi"⟩ rfl⟩

/-- C4 (counterexample): with the registered tool named `Echo`, the action
name `echo` — differing only in letter case — fails to resolve in the
step-executor's raw-name table, and even the exactly matching raw name `Echo`
fails the return-direct check (whose keys are lower-cased), while the
run-to-completion table does resolve `echo`. -/
theorem toolLookup_case_sensitivity_cex :
    objectGet it6.nameToToolMap "echo" = none ∧
    ex6.getToolReturn ⟨⟨"Echo", "hi", ""⟩, "E:hi"⟩ = none ∧
    (objectGet ex6.toolsByName (jsToLowerCase "echo")).isSome = true :=
  ⟨rfl, rfl, rfl⟩

/-- C6 (counterexample): the return-direct tool `Echo` is invoked successfully
by the iterator, yet the run does not end on that cycle: the return-direct
check misses (raw action name against lower-cased keys), planning continues,
and the drained run ends with the canned stop message instead of the tool's
observation. -/
theorem returnDirect_iterator_cex :
    upperEchoTool.returnDirect = true ∧
    upperEchoTool.call "hi" = .ok "E:hi" ∧
    it6.streamIterator 6 initialIterState = .drained
      [[("intermediateSteps", Value.steps
          [{ action := { tool := "Echo", toolInput := "hi", log := "" }, observation := "E:hi" }])],
       [("intermediateSteps", Value.steps
          [{ action := { tool := "Echo", toolInput := "hi", log := "" }, observation := "E:hi" }])],
       [("output", Value.str stopMessage)]]
      (some [("output", Value.str stopMessage)]) ∧
    stopMessage ≠ "E:hi" :=
  ⟨rfl, rfl, rfl, by decide⟩

/-- C7 (counterexample): with the fixed-string policy `use X` and a plan that
always raises the parsing error, the step-executor path looks the synthesized
`_Exception` action up like any tool, misses, and records the invalid-tool
listing — not `use X` — as the recovered cycle's observation. -/
theorem fixedString_policy_iterator_cex :
    ex7.handleParsingErrors = .ofString "use X" ∧
    ex7.takeNextStep it7.nameToToolMap [] [] = .ok (.inr
      [{ action := { tool := "_Exception", toolInput := "use X", log := "could not parse" },
         observation := "_Exception is not a valid tool, try another available tool: echo" }]) ∧
    ("_Exception is not a valid tool, try another available tool: echo" : String) ≠ "use X" :=
  ⟨rfl, rfl, by decide⟩

/-! Loop lemmas for the run-to-completion driver. -/

/-- When the continuation predicate fails, `callLoop` takes the stopped path
whatever the fuel. -/
theorem callLoop_stopped (ex : AgentExecutor) (inputs : Record) (f : Nat)
    (steps : List AgentStep) (its : Nat)
    (hsc : ex.shouldContinue its = false) :
    ex.callLoop inputs f steps its =
      match ex.agent.returnStoppedResponse ex.earlyStoppingMethod steps inputs with
      | .error m => .error (.stoppedResponseError m)
      | .ok finish => .ok (some (ex.getOutput steps finish)) := by
  cases f <;> simp only [AgentExecutor.callLoop, hsc, Bool.false_eq_true, if_false]

/-- One non-terminal cycle of `callLoop`: continuation holds, planning yields
actions, every dispatch succeeds, and the last step's tool is not
return-direct, so the loop appends the steps and recurses with one more
iteration. -/
theorem callLoop_cycle (ex : AgentExecutor) (inputs : Record) (f : Nat)
    (steps : List AgentStep) (its : Nat) (out : PlanOutput)
    (as : List AgentAction) (l : List AgentStep) (lastStep : AgentStep)
    (hsc : ex.shouldContinue its = true)
    (hph : ex.planAndHandle steps inputs = .ok out)
    (hte : out.toEither = .inr as)
    (hmapM : as.mapM ex.callDispatch = .ok l)
    (hlast : (steps ++ l).getLast? = some lastStep)
    (hnotrd : ∀ t, objectGet ex.toolsByName (jsToLowerCase lastStep.action.tool) = some t →
      t.returnDirect = false) :
    ex.callLoop inputs (f + 1) steps its = ex.callLoop inputs f (steps ++ l) (its + 1) := by
  simp only [AgentExecutor.callLoop, hsc, if_true, hph, hte, hmapM, hlast]
  cases hlk : objectGet ex.toolsByName (jsToLowerCase lastStep.action.tool) with
  | none => rfl
  | some t =>
    simp only [hnotrd t hlk, Bool.false_eq_true, if_false]

/-- One terminal return-direct cycle of `callLoop`: the last dispatched step's
lower-cased tool name resolves to a return-direct tool, so the loop finishes
at once with the observation under the first declared return value key. -/
theorem callLoop_returnDirect_cycle (ex : AgentExecutor) (inputs : Record)
    (f : Nat) (steps : List AgentStep) (its : Nat) (out : PlanOutput)
    (as : List AgentAction) (l : List AgentStep) (lastStep : AgentStep)
    (t : ToolSpec)
    (hsc : ex.shouldContinue its = true)
    (hph : ex.planAndHandle steps inputs = .ok out)
    (hte : out.toEither = .inr as)
    (hmapM : as.mapM ex.callDispatch = .ok l)
    (hlast : (steps ++ l).getLast? = some lastStep)
    (hlk : objectGet ex.toolsByName (jsToLowerCase lastStep.action.tool) = some t)
    (hrd : t.returnDirect = true) :
    ex.callLoop inputs (f + 1) steps its =
      .ok (some (ex.getOutput (steps ++ l)
        { returnValues := objectInsert [] (ex.agent.returnValues.headD "undefined")
            (Value.str lastStep.observation)
          log := "" })) := by
  simp only [AgentExecutor.callLoop, hsc, if_true, hph, hte, hmapM, hlast, hlk, hrd]

/-- Under a finite bound `N`, a planner that always yields at least one action,
benign tools (never failing, never return-direct) and the spec force-stop
contract, the loop with fuel covering the remaining budget ends in the forced
stop finish carrying the canned message under the primary key. -/
theorem callLoop_stops (ex : AgentExecutor) (inputs : Record) (N : Nat)
    (pk : String)
    (hmax : ex.maxIterations = some N)
    (hplan : ∀ steps, ∃ out, ex.agent.plan steps inputs = .ok out ∧
      ∃ as, PlanOutput.toEither out = .inr as ∧ as ≠ [])
    (htools : ∀ t ∈ ex.tools, t.returnDirect = false)
    (hcalls : ∀ t ∈ ex.tools, ∀ inp, ∃ o, t.call inp = .ok o)
    (hstop : ex.earlyStoppingMethod = "force")
    (hrs : ∀ steps, ex.agent.returnStoppedResponse "force" steps inputs =
      forceStoppedResponse ex.agent.returnValues)
    (hpkey : ex.agent.returnValues.headD "output" = pk)
    (hprep : ∀ rv steps, ex.agent.prepareForOutput rv steps = [])
    (hpk : pk ≠ "intermediateSteps") :
    ∀ f steps its, its + f = N →
      ∃ out, ex.callLoop inputs f steps its = .ok (some out) ∧
        objectGet out pk = some (Value.str stopMessage) := by
  intro f
  induction f with
  | zero =>
    intro steps its h
    have hsc : ex.shouldContinue its = false := by
      rw [shouldContinue_eq hmax]
      simp only [decide_eq_false_iff_not]
      omega
    refine ⟨ex.getOutput steps
      { returnValues := objectInsert [] pk (Value.str stopMessage), log := "" }, ?_, ?_⟩
    · rw [callLoop_stopped ex inputs 0 steps its hsc, hstop, hrs steps]
      unfold forceStoppedResponse
      rw [hpkey]
    · exact objectGet_getOutput_primary ex steps pk _ "" (hprep _ _) hpk
  | succ f ih =>
    intro steps its h
    have hsc : ex.shouldContinue its = true := by
      rw [shouldContinue_eq hmax]
      simp only [decide_eq_true_eq]
      omega
    obtain ⟨out, hout, as, hte, hne⟩ := hplan steps
    have hph : ex.planAndHandle steps inputs = .ok out := by
      unfold AgentExecutor.planAndHandle
      rw [hout]
    obtain ⟨l, hl, hlen⟩ := mapM_callDispatch_ok ex hcalls as
    have hlne : l ≠ [] := by
      intro hnil
      rw [hnil] at hlen
      exact hne (List.length_eq_zero.mp hlen.symm)
    have hlast : ∃ lastStep, (steps ++ l).getLast? = some lastStep := by
      rw [← Option.isSome_iff_exists, List.getLast?_isSome]
      simp [hlne]
    obtain ⟨lastStep, hlastStep⟩ := hlast
    have hnotrd : ∀ t, objectGet ex.toolsByName (jsToLowerCase lastStep.action.tool) = some t →
        t.returnDirect = false := fun t hlk => htools t (toolsByName_get_mem hlk).1
    rw [callLoop_cycle ex inputs f steps its out as l lastStep hsc hph hte hl hlastStep hnotrd]
    exact ih (steps ++ l) (its + 1) (by omega)

/-- With fuel strictly below the remaining budget, the loop is still running
when the fuel runs out: each cycle consumes one fuel unit, so fuel `N - 1`
means the bound is not yet reached after the last funded cycle. -/
theorem callLoop_under (ex : AgentExecutor) (inputs : Record) (N : Nat)
    (hmax : ex.maxIterations = some N)
    (hplan : ∀ steps, ∃ out, ex.agent.plan steps inputs = .ok out ∧
      ∃ as, PlanOutput.toEither out = .inr as ∧ as ≠ [])
    (htools : ∀ t ∈ ex.tools, t.returnDirect = false)
    (hcalls : ∀ t ∈ ex.tools, ∀ inp, ∃ o, t.call inp = .ok o) :
    ∀ f steps its, its + f < N → ex.callLoop inputs f steps its = .ok none := by
  intro f
  induction f with
  | zero =>
    intro steps its h
    have hsc : ex.shouldContinue its = true := by
      rw [shouldContinue_eq hmax]
      simp only [decide_eq_true_eq]
      omega
    simp only [AgentExecutor.callLoop, hsc, if_true]
  | succ f ih =>
    intro steps its h
    have hsc : ex.shouldContinue its = true := by
      rw [shouldContinue_eq hmax]
      simp only [decide_eq_true_eq]
      omega
    obtain ⟨out, hout, as, hte, hne⟩ := hplan steps
    have hph : ex.planAndHandle steps inputs = .ok out := by
      unfold AgentExecutor.planAndHandle
      rw [hout]
    obtain ⟨l, hl, hlen⟩ := mapM_callDispatch_ok ex hcalls as
    have hlne : l ≠ [] := by
      intro hnil
      rw [hnil] at hlen
      exact hne (List.length_eq_zero.mp hlen.symm)
    have hlast : ∃ lastStep, (steps ++ l).getLast? = some lastStep := by
      rw [← Option.isSome_iff_exists, List.getLast?_isSome]
      simp [hlne]
    obtain ⟨lastStep, hlastStep⟩ := hlast
    have hnotrd : ∀ t, objectGet ex.toolsByName (jsToLowerCase lastStep.action.tool) = some t →
        t.returnDirect = false := fun t hlk => htools t (toolsByName_get_mem hlk).1
    rw [callLoop_cycle ex inputs f steps its out as l lastStep hsc hph hte hl hlastStep hnotrd]
    exact ih (steps ++ l) (its + 1) (by omega)

/-- C5: with `maxIterations = N > 0`, a decision-maker that never finishes
(every plan yields at least one action), benign tools (no failures, no
return-direct), and the force stop contract, the run performs exactly N
planning cycles — fuel N (one unit per cycle) completes, fuel N-1 leaves the
loop still running — and ends with the forced finish whose primary output is
the canned stop message. -/
theorem maxIterations_forced_stop (ex : AgentExecutor) (inputs : Record)
    (N : Nat) (pk : String)
    (hmax : ex.maxIterations = some N)
    (hN : 0 < N)
    (hplan : ∀ steps, ∃ out, ex.agent.plan steps inputs = .ok out ∧
      ∃ as, PlanOutput.toEither out = .inr as ∧ as ≠ [])
    (htools : ∀ t ∈ ex.tools, t.returnDirect = false)
    (hcalls : ∀ t ∈ ex.tools, ∀ inp, ∃ o, t.call inp = .ok o)
    (hstop : ex.earlyStoppingMethod = "force")
    (hrs : ∀ steps, ex.agent.returnStoppedResponse "force" steps inputs =
      forceStoppedResponse ex.agent.returnValues)
    (hpkey : ex.agent.returnValues.headD "output" = pk)
    (hprep : ∀ rv steps, ex.agent.prepareForOutput rv steps = [])
    (hpk : pk ≠ "intermediateSteps") :
    (∃ out, ex.callRun inputs N = .ok (some out) ∧
      objectGet out pk = some (Value.str stopMessage)) ∧
    ex.callRun inputs (N - 1) = .ok none := by
  constructor
  · exact callLoop_stops ex inputs N pk hmax hplan htools hcalls hstop hrs hpkey
      hprep hpk N [] 0 (by omega)
  · exact callLoop_under ex inputs N hmax hplan htools hcalls (N - 1) [] 0 (by omega)

/-- C5 (witness): the forced stop at the concrete executor `ex5`
(`maxIterations = 2`, an agent always requesting `echo`). -/
theorem maxIterations_forced_stop_witness :
    (∃ out, ex5.callRun [] 2 = .ok (some out) ∧
      objectGet out "output" = some (Value.str stopMessage)) ∧
    ex5.callRun [] 1 = .ok none := by
  refine maxIterations_forced_stop ex5 [] 2 "output" rfl (by decide) ?_ ?_ ?_ rfl
    (fun _ => rfl) rfl (fun _ _ => rfl) (by decide)
  · intro steps
    exact ⟨.action { tool := "echo", toolInput := "x", log := "" }, rfl,
      [{ tool := "echo", toolInput := "x", log := "" }], rfl, by simp⟩
  · intro t ht
    rw [List.mem_singleton.mp ht]
    rfl
  · intro t ht inp
    rw [List.mem_singleton.mp ht]
    exact ⟨inp, rfl⟩

/-- Under the fixed-string policy with an always-failing planner, each funded
`callLoop` cycle appends one `_Exception` step whose observation is the fixed
string, and the run ends in the forced stop once the budget is exhausted. -/
theorem callLoop_parse_recovery (ex : AgentExecutor) (inputs : Record)
    (N : Nat) (S : String) (pk : String)
    (hmax : ex.maxIterations = some N)
    (hpolicy : ex.handleParsingErrors = .ofString S)
    (hplan : ∀ steps, ∃ e, ex.agent.plan steps inputs = .error (.outputParser e))
    (htools : ∀ t ∈ ex.tools, t.returnDirect = false)
    (hstop : ex.earlyStoppingMethod = "force")
    (hrs : ∀ steps, ex.agent.returnStoppedResponse "force" steps inputs =
      forceStoppedResponse ex.agent.returnValues)
    (hpkey : ex.agent.returnValues.headD "output" = pk)
    (hprep : ∀ rv steps, ex.agent.prepareForOutput rv steps = [])
    (hris : ex.returnIntermediateSteps = true)
    (hpk : pk ≠ "intermediateSteps") :
    ∀ f steps its, its + f = N →
      ∃ l, ex.callLoop inputs f steps its =
          .ok (some [(pk, Value.str stopMessage),
            ("intermediateSteps", Value.steps (steps ++ l))]) ∧
        l.length = f ∧ ∀ st ∈ l, st.observation = S := by
  intro f
  induction f with
  | zero =>
    intro steps its h
    have hsc : ex.shouldContinue its = false := by
      rw [shouldContinue_eq hmax]
      simp only [decide_eq_false_iff_not]
      omega
    refine ⟨[], ?_, rfl, by simp⟩
    rw [callLoop_stopped ex inputs 0 steps its hsc, hstop, hrs steps]
    unfold forceStoppedResponse
    rw [hpkey]
    dsimp only
    rw [getOutput_closed_ris ex steps pk (Value.str stopMessage) "" hris (hprep _ _) hpk]
    rw [List.append_nil]
  | succ f ih =>
    intro steps its h
    have hsc : ex.shouldContinue its = true := by
      rw [shouldContinue_eq hmax]
      simp only [decide_eq_true_eq]
      omega
    obtain ⟨e, he⟩ := hplan steps
    have hph : ex.planAndHandle steps inputs =
        .ok (.action ⟨"_Exception", S, e.message⟩) := by
      unfold AgentExecutor.planAndHandle
      rw [he, hpolicy]
    have hd : ex.callDispatch ⟨"_Exception", S, e.message⟩ =
        .ok ⟨⟨"_Exception", S, e.message⟩, S⟩ := by
      unfold AgentExecutor.callDispatch
      simp [ExceptionTool]
    have hmapM : [(⟨"_Exception", S, e.message⟩ : AgentAction)].mapM
        ex.callDispatch = .ok [⟨⟨"_Exception", S, e.message⟩, S⟩] := by
      rw [List.mapM_cons, hd, List.mapM_nil]
      rfl
    have hlast : (steps ++ [(⟨⟨"_Exception", S, e.message⟩, S⟩ : AgentStep)]).getLast? =
        some ⟨⟨"_Exception", S, e.message⟩, S⟩ :=
      List.getLast?_concat _
    have hnotrd : ∀ t, objectGet ex.toolsByName
        (jsToLowerCase ((⟨⟨"_Exception", S, e.message⟩, S⟩ : AgentStep)).action.tool) = some t →
        t.returnDirect = false := fun t hlk => htools t (toolsByName_get_mem hlk).1
    rw [callLoop_cycle ex inputs f steps its _ _ _ _ hsc hph rfl hmapM hlast hnotrd]
    obtain ⟨l, hl, hlen, hobs⟩ := ih
      (steps ++ [⟨⟨"_Exception", S, e.message⟩, S⟩]) (its + 1) (by omega)
    refine ⟨(⟨⟨"_Exception", S, e.message⟩, S⟩ : AgentStep) :: l, ?_, by simp [hlen], ?_⟩
    · rw [hl, List.append_assoc]
      rfl
    · intro st hst
      rcases List.mem_cons.mp hst with h1 | h1
      · rw [h1]
      · exact hobs st h1

/-- C7 (amended): in the run-to-completion driver, with `handleParsingErrors`
a fixed string S and a planner that always raises the output-parsing error,
every recovered cycle's synthesized Observation equals S exactly (the
`_Exception` action is routed to the echoing `ExceptionTool`), and the run
terminates under the iteration bound N with the forced stop; in the
step-executor path the synthesized observation is instead the invalid-tool
listing (see the counterexample). -/
theorem fixedString_policy_call_mode (ex : AgentExecutor) (inputs : Record)
    (N : Nat) (S : String) (pk : String)
    (hmax : ex.maxIterations = some N)
    (hpolicy : ex.handleParsingErrors = .ofString S)
    (hplan : ∀ steps, ∃ e, ex.agent.plan steps inputs = .error (.outputParser e))
    (htools : ∀ t ∈ ex.tools, t.returnDirect = false)
    (hstop : ex.earlyStoppingMethod = "force")
    (hrs : ∀ steps, ex.agent.returnStoppedResponse "force" steps inputs =
      forceStoppedResponse ex.agent.returnValues)
    (hpkey : ex.agent.returnValues.headD "output" = pk)
    (hprep : ∀ rv steps, ex.agent.prepareForOutput rv steps = [])
    (hris : ex.returnIntermediateSteps = true)
    (hpk : pk ≠ "intermediateSteps") :
    ∃ l, ex.callRun inputs N =
        .ok (some [(pk, Value.str stopMessage), ("intermediateSteps", Value.steps l)]) ∧
      l.length = N ∧ ∀ st ∈ l, st.observation = S := by
  obtain ⟨l, hl, hlen, hobs⟩ := callLoop_parse_recovery ex inputs N S pk hmax hpolicy
    hplan htools hstop hrs hpkey hprep hris hpk N [] 0 (by omega)
  rw [List.nil_append] at hl
  exact ⟨l, hl, hlen, hobs⟩

/-- C7 (witness): the fixed-string recovery at the concrete executor `ex7w`
(`handleParsingErrors = "use X"`, bound 2, intermediate steps returned). -/
theorem fixedString_policy_call_mode_witness :
    ∃ l, ex7w.callRun [] 2 =
        .ok (some [("output", Value.str stopMessage),
          ("intermediateSteps", Value.steps l)]) ∧
      l.length = 2 ∧ ∀ st ∈ l, st.observation = "use X" := by
  refine fixedString_policy_call_mode ex7w [] 2 "use X" "output" rfl rfl ?_ ?_ rfl
    (fun _ => rfl) rfl (fun _ _ => rfl) rfl (by decide)
  · intro steps
    exact ⟨⟨"could not parse", false, none, none⟩, rfl⟩
  · intro t ht
    rw [List.mem_singleton.mp ht]
    rfl

/-- A `_call` cycle whose planned action resolves (case-insensitively) to a
return-direct tool that returns an observation ends the run on that cycle:
fuel 1 suffices, whatever the remaining budget, and the observation is the
sole primary output value. -/
theorem returnDirect_call_cycle_ends (ex : AgentExecutor) (inputs : Record)
    (steps : List AgentStep) (its fuel : Nat) (a : AgentAction) (t : ToolSpec)
    (obs pk : String)
    (hsc : ex.shouldContinue its = true)
    (hplan1 : ex.agent.plan steps inputs = .ok (.action a))
    (hne : a.tool ≠ "_Exception")
    (hlk : objectGet ex.toolsByName (jsToLowerCase a.tool) = some t)
    (hrd : t.returnDirect = true)
    (hcall : t.call a.toolInput = .ok obs)
    (hpkey : ex.agent.returnValues.headD "undefined" = pk)
    (hprep : ∀ rv st, ex.agent.prepareForOutput rv st = [])
    (hpk : pk ≠ "intermediateSteps") :
    ∃ out, ex.callLoop inputs (fuel + 1) steps its = .ok (some out) ∧
      objectGet out pk = some (Value.str obs) := by
  have hph : ex.planAndHandle steps inputs = .ok (.action a) := by
    unfold AgentExecutor.planAndHandle
    rw [hplan1]
  have hd : ex.callDispatch a = .ok ⟨a, obs⟩ := by
    unfold AgentExecutor.callDispatch
    simp only [hne, if_false, hlk, hcall]
  have hmapM : [a].mapM ex.callDispatch = .ok [(⟨a, obs⟩ : AgentStep)] := by
    rw [List.mapM_cons, hd, List.mapM_nil]
    rfl
  have hlast : (steps ++ [(⟨a, obs⟩ : AgentStep)]).getLast? = some ⟨a, obs⟩ :=
    List.getLast?_concat _
  have hlk2 : objectGet ex.toolsByName
      (jsToLowerCase ((⟨a, obs⟩ : AgentStep)).action.tool) = some t := hlk
  rw [callLoop_returnDirect_cycle ex inputs fuel steps its _ _ _ _ t hsc hph rfl
    hmapM hlast hlk2 hrd]
  rw [hpkey]
  exact ⟨_, rfl, objectGet_getOutput_primary ex _ pk _ "" (hprep _ _) hpk⟩

/-- An iterator cycle whose planned action hits a return-direct tool exactly
by raw name, and whose raw name also hits that tool in the lower-cased-key
table, stores final outputs on that cycle: the yielded value is the step
batch, the stored final outputs carry the observation under the primary key,
and the next pull raises the final-outputs-already-reached error. -/
theorem returnDirect_iterator_cycle_ends (it : AgentExecutorIterator)
    (s : IterState) (a : AgentAction) (t : ToolSpec) (obs pk : String)
    (hfo : s.finalOutputs = none)
    (hsc : it.agentExecutor.shouldContinue s.iterations = true)
    (hplan1 : it.agentExecutor.agent.plan s.intermediateSteps it.inputs = .ok (.action a))
    (hraw : objectGet it.nameToToolMap a.tool = some t)
    (hcall : t.call a.toolInput = .ok obs)
    (hlow : objectGet (objectFromEntries (it.agentExecutor.tools.map
      (fun x => (jsToLowerCase x.name, x)))) a.tool = some t)
    (hrd : t.returnDirect = true)
    (hpkey : it.agentExecutor.agent.returnValues.headD "output" = pk)
    (hpk : pk ≠ "intermediateSteps") :
    ∃ s' fo, it.callNext s = .ok ([("intermediateSteps", Value.steps [⟨a, obs⟩])], s') ∧
      s'.finalOutputs = some fo ∧ objectGet fo pk = some (Value.str obs) ∧
      it.callNext s' = .error .finalOutputsAlreadyReached := by
  have hph : it.agentExecutor.planAndHandle s.intermediateSteps it.inputs = .ok (.action a) := by
    unfold AgentExecutor.planAndHandle
    rw [hplan1]
  have hdisp : it.agentExecutor.takeStepDispatch it.nameToToolMap a = .ok ⟨a, obs⟩ := by
    unfold AgentExecutor.takeStepDispatch
    rw [hraw]
    dsimp only
    rw [hcall]
  have htns : it.agentExecutor.takeNextStep it.nameToToolMap it.inputs s.intermediateSteps =
      .ok (.inr [⟨a, obs⟩]) := by
    unfold AgentExecutor.takeNextStep
    rw [hph]
    dsimp only [PlanOutput.toEither]
    rw [List.mapM_cons, hdisp, List.mapM_nil]
    rfl
  have hgtr : it.agentExecutor.getToolReturn ⟨a, obs⟩ =
      some ⟨objectInsert [] pk (Value.str obs), ""⟩ := by
    unfold AgentExecutor.getToolReturn
    dsimp only
    rw [hlow]
    simp only [hrd, if_true]
    rw [hpkey]
  refine ⟨{ intermediateSteps := s.intermediateSteps ++ [⟨a, obs⟩]
            iterations := s.iterations + 1
            finalOutputs := some (prepOutputs it.inputs
              (it.agentExecutor.returnOutput ⟨objectInsert [] pk (Value.str obs), ""⟩
                (s.intermediateSteps ++ [⟨a, obs⟩]))) },
      prepOutputs it.inputs
        (it.agentExecutor.returnOutput ⟨objectInsert [] pk (Value.str obs), ""⟩
          (s.intermediateSteps ++ [⟨a, obs⟩])), ?_, rfl, ?_, ?_⟩
  · unfold AgentExecutorIterator.callNext
    rw [hfo, hsc, htns]
    simp only [Option.isSome_none, Bool.false_eq_true, if_false, not_true, ite_false,
      ite_true, if_true]
    unfold AgentExecutorIterator.processNextStepOutput
    dsimp only
    rw [hgtr]
    unfold AgentExecutorIterator.setFinalOutputs
    dsimp only
  · dsimp only [prepOutputs]
    exact objectGet_returnOutput_primary it.agentExecutor _ pk _ "" hpk
  · rfl

/-- C6 (amended): a successfully invoked return-direct tool ends the run on
that same cycle with its Observation as the sole primary output in the
run-to-completion driver, case-insensitively and regardless of the remaining
iteration budget; in the step iterator this holds only when the return-direct
check's lookup (the action's raw name against lower-cased registered names)
hits the invoked tool — with an upper-case registered name the check misses
and the iterator keeps planning (see the counterexample). -/
theorem returnDirect_ends_run :
    (∀ (ex : AgentExecutor) (inputs : Record) (steps : List AgentStep)
       (its fuel : Nat) (a : AgentAction) (t : ToolSpec) (obs pk : String),
       ex.shouldContinue its = true →
       ex.agent.plan steps inputs = .ok (.action a) →
       a.tool ≠ "_Exception" →
       objectGet ex.toolsByName (jsToLowerCase a.tool) = some t →
       t.returnDirect = true →
       t.call a.toolInput = .ok obs →
       ex.agent.returnValues.headD "undefined" = pk →
       (∀ rv st, ex.agent.prepareForOutput rv st = []) →
       pk ≠ "intermediateSteps" →
       ∃ out, ex.callLoop inputs (fuel + 1) steps its = .ok (some out) ∧
         objectGet out pk = some (Value.str obs)) ∧
    (∀ (it : AgentExecutorIterator) (s : IterState) (a : AgentAction)
       (t : ToolSpec) (obs pk : String),
       s.finalOutputs = none →
       it.agentExecutor.shouldContinue s.iterations = true →
       it.agentExecutor.agent.plan s.intermediateSteps it.inputs = .ok (.action a) →
       objectGet it.nameToToolMap a.tool = some t →
       t.call a.toolInput = .ok obs →
       objectGet (objectFromEntries (it.agentExecutor.tools.map
         (fun x => (jsToLowerCase x.name, x)))) a.tool = some t →
       t.returnDirect = true →
       it.agentExecutor.agent.returnValues.headD "output" = pk →
       pk ≠ "intermediateSteps" →
       ∃ s' fo, it.callNext s = .ok ([("intermediateSteps", Value.steps [⟨a, obs⟩])], s') ∧
         s'.finalOutputs = some fo ∧ objectGet fo pk = some (Value.str obs) ∧
         it.callNext s' = .error .finalOutputsAlreadyReached) :=
  ⟨fun ex inputs steps its fuel a t obs pk hsc hplan1 hne hlk hrd hcall hpkey hprep hpk =>
      returnDirect_call_cycle_ends ex inputs steps its fuel a t obs pk hsc hplan1 hne
        hlk hrd hcall hpkey hprep hpk,
    fun it s a t obs pk hfo hsc hplan1 hraw hcall hlow hrd hpkey hpk =>
      returnDirect_iterator_cycle_ends it s a t obs pk hfo hsc hplan1 hraw hcall
        hlow hrd hpkey hpk⟩

/-- C6 (witness): both parts applied at concrete configurations — the
upper-case `Echo` tool under `_call` with fuel 1, and the lower-case `direct`
tool under the iterator. -/
theorem returnDirect_ends_run_witness :
    (∃ out, ex6.callLoop [] 1 [] 0 = .ok (some out) ∧
      objectGet out "output" = some (Value.str "E:hi")) ∧
    (∃ s' fo, it6b.callNext initialIterState =
        .ok ([("intermediateSteps", Value.steps [⟨⟨"direct", "hi", ""⟩, "D:hi"⟩])], s') ∧
      s'.finalOutputs = some fo ∧ objectGet fo "output" = some (Value.str "D:hi") ∧
      it6b.callNext s' = .error .finalOutputsAlreadyReached) := by
  constructor
  · exact returnDirect_ends_run.1 ex6 [] [] 0 0 ⟨"Echo", "hi", ""⟩ upperEchoTool
      "E:hi" "output" rfl rfl (by decide) rfl rfl rfl rfl (fun _ _ => rfl) (by decide)
  · exact returnDirect_ends_run.2 it6b initialIterState ⟨"direct", "hi", ""⟩ directTool
      "D:hi" "output" rfl rfl rfl rfl rfl rfl rfl rfl (by decide)

end LangChain
